import Mathlib

/-!
Verification of the NeuroPyxels sync-channel decoding utilities
(`rtn/npix/io.py`): `unpackbits`, `unpack_npix_sync`, `map_binary`,
`extract_rawChunk`, `extract_syncChan`.

Modelling conventions:
* numpy integer arrays are Lean `List Int` (1-D) or `List (List Int)`
  (2-D, row-major); an n-dimensional array is a shape together with its
  row-major data (`NDArray`).
* numpy bitwise `&` on signed integers is two's complement, modelled by
  `Int.land` (Lean's `Int.land` is two's complement as well).
* Python floats appearing only in exact-valued arithmetic or comparisons
  are modelled as rationals.
* Python `dict`s built by inserting keys in increasing order are modelled
  as association lists `List (key × value)` whose keys appear in the
  insertion order.
-/

namespace NeuroPyxels

/-! ### Bit unpacker (`unpackbits`, io.py lines 217-224)

Python:
```
def unpackbits(x, num_bits=16):
    xshape = list(x.shape)
    x = x.reshape([-1, 1])
    to_and = 2**np.arange(num_bits).reshape([1, num_bits])
    return (x & to_and).astype(bool).astype(int).reshape(xshape + [num_bits])
```
-/

/-- One row of `unpackbits`: sample `x` against the mask row
`2**np.arange(num_bits)`; `(x & to_and).astype(bool).astype(int)`. -/
def unpackbitsRow (x : Int) (num_bits : Nat) : List Nat :=
  (List.range num_bits).map (fun b => if Int.land x (2 ^ b) = 0 then 0 else 1)

/-- `unpackbits` on a 1-D integer array: the `(N, num_bits)` result,
row `i` holding the bits of sample `i`, least-significant bit first. -/
def unpackbits (x : List Int) (num_bits : Nat) : List (List Nat) :=
  x.map (fun s => unpackbitsRow s num_bits)

/-- An n-dimensional numpy array: its shape and its row-major data. -/
structure NDArray (α : Type) where
  shape : List Nat
  data : List α

/-- `unpackbits` on an arbitrary-dimensional array.  `x.reshape([-1,1])`
always succeeds and enumerates the data in row-major order; the final
`reshape(xshape + [num_bits])` succeeds exactly when the element counts
agree, otherwise numpy raises (modelled by `none`). -/
def unpackbitsND (x : NDArray Int) (num_bits : Nat) : Option (NDArray Nat) :=
  if x.data.length * num_bits = x.shape.prod * num_bits then
    some ⟨x.shape ++ [num_bits], (unpackbits x.data num_bits).flatten⟩
  else
    none

/-- The specification's "bit `b` of sample `x`, least-significant bit
first": the `b`-th binary digit of the two's-complement value, i.e. of
`x` reduced modulo `2^(b+1)`.  This is the spec-side reference notion
against which the code's `unpackbits` output is compared. -/
def specBit (x : Int) (b : Nat) : Nat :=
  ((x % 2 ^ (b + 1)) / 2 ^ b).toNat

/-! ### Bridge lemmas: `Int.land` with a power of two vs. arithmetic -/

theorem Nat.and_two_pow_eq_ite (m b : Nat) :
    m &&& 2 ^ b = if m.testBit b then 2 ^ b else 0 := by
  rw [Nat.and_two_pow]
  cases h : m.testBit b <;> simp [h]

theorem Nat.testBit_eq_decide_le (m b : Nat) :
    m.testBit b = decide (2 ^ b ≤ m % 2 ^ (b + 1)) := by
  rw [Nat.testBit_to_div_mod]
  have hpos : 0 < 2 ^ b := Nat.pos_pow_of_pos b (by norm_num)
  have h1 : m % 2 ^ (b + 1) / 2 ^ b = m / 2 ^ b % 2 := by
    rw [Nat.pow_succ, Nat.mod_mul_right_div_self]
  have h2 : m % 2 ^ (b + 1) < 2 * 2 ^ b := by
    have := Nat.mod_lt m (Nat.pos_pow_of_pos (b + 1) (show 0 < 2 by norm_num))
    have hp : 2 ^ (b + 1) = 2 * 2 ^ b := by rw [Nat.pow_succ]; ring
    omega
  rcases Nat.lt_or_ge (m % 2 ^ (b + 1)) (2 ^ b) with hlt | hge
  · have hz : m / 2 ^ b % 2 = 0 := by
      rw [← h1]; exact Nat.div_eq_of_lt hlt
    have hn : ¬ (2 ^ b ≤ m % 2 ^ (b + 1)) := Nat.not_le.mpr hlt
    rw [hz]
    simp [hn]
  · have ho : m / 2 ^ b % 2 = 1 := by
      rw [← h1]
      have hge1 : 1 ≤ m % 2 ^ (b + 1) / 2 ^ b := (Nat.one_le_div_iff hpos).mpr hge
      have hlt2 : m % 2 ^ (b + 1) / 2 ^ b < 2 := (Nat.div_lt_iff_lt_mul hpos).mpr h2
      omega
    rw [ho]
    simp [hge]

theorem Nat.ldiff_two_pow (m b : Nat) :
    (2 ^ b).ldiff m = if m.testBit b then 0 else 2 ^ b := by
  apply Nat.eq_of_testBit_eq
  intro i
  rw [Nat.testBit_ldiff]
  cases h : m.testBit b with
  | true =>
    by_cases hib : b = i
    · subst hib; simp [h, Nat.zero_testBit]
    · simp [Nat.testBit_two_pow, hib, Nat.zero_testBit]
  | false =>
    by_cases hib : b = i
    · subst hib; simp [h]
    · simp [Nat.testBit_two_pow, hib]

theorem Int.negSucc_emod_two_pow (m n : Nat) :
    (Int.negSucc m) % (2 ^ n : Int) = (2 ^ n : Int) - 1 - ((m : Int) % 2 ^ n) := by
  have hN : (0 : Int) < 2 ^ n := by positivity
  have hm1 : (m : Int) % 2 ^ n < 2 ^ n := Int.emod_lt_of_pos _ hN
  have hm0 : (0 : Int) ≤ (m : Int) % 2 ^ n := Int.emod_nonneg _ (ne_of_gt hN)
  have hdef : (m : Int) % 2 ^ n = (m : Int) - 2 ^ n * ((m : Int) / 2 ^ n) :=
    Int.emod_def _ _
  have hcongr : (Int.negSucc m) % (2 ^ n : Int)
      = ((2 ^ n : Int) - 1 - ((m : Int) % 2 ^ n)) % 2 ^ n := by
    rw [Int.emod_eq_emod_iff_emod_sub_eq_zero]
    have heq : Int.negSucc m - ((2 ^ n : Int) - 1 - ((m : Int) % 2 ^ n))
        = 2 ^ n * (-((m : Int) / 2 ^ n) - 1) := by
      rw [Int.negSucc_eq, hdef]; ring
    rw [heq]
    exact Int.mul_emod_right _ _
  rw [hcongr]
  exact Int.emod_eq_of_lt (by omega) (by omega)

theorem Int.land_two_pow_eq_ite (x : Int) (b : Nat) :
    Int.land x (2 ^ b) =
      if (2 ^ b : Int) ≤ x % 2 ^ (b + 1) then (2 ^ b : Int) else 0 := by
  have hcb : ((2 : Int) ^ b) = ((2 ^ b : Nat) : Int) := by push_cast; ring
  cases x with
  | ofNat m =>
    rw [Int.ofNat_eq_natCast]
    have hland : Int.land (m : Int) (2 ^ b) = ((m &&& 2 ^ b : Nat) : Int) := by
      rw [hcb]; rfl
    have hmod : (m : Int) % (2 ^ (b + 1) : Int) = ((m % 2 ^ (b + 1) : Nat) : Int) := by
      push_cast; ring
    rw [hland, hmod, Nat.and_two_pow_eq_ite, Nat.testBit_eq_decide_le]
    simp only [decide_eq_true_eq]
    by_cases h : 2 ^ b ≤ m % 2 ^ (b + 1)
    · have h' : (2 ^ b : Int) ≤ ((m % 2 ^ (b + 1) : Nat) : Int) := by
        rw [hcb]; exact Nat.cast_le.mpr h
      rw [if_pos h, if_pos h']
      exact hcb.symm
    · have h' : ¬ (2 ^ b : Int) ≤ ((m % 2 ^ (b + 1) : Nat) : Int) := by
        rw [hcb]; exact fun hc => h (Nat.cast_le.mp hc)
      rw [if_neg h, if_neg h']
      exact Nat.cast_zero
  | negSucc m =>
    have hland : Int.land (Int.negSucc m) (2 ^ b)
        = ((if m.testBit b then 0 else 2 ^ b : Nat) : Int) := by
      rw [hcb]
      show (((2 ^ b).ldiff m : Nat) : Int) = _
      rw [Nat.ldiff_two_pow]
    have hmod := Int.negSucc_emod_two_pow m (b + 1)
    have hmcast : (m : Int) % 2 ^ (b + 1) = ((m % 2 ^ (b + 1) : Nat) : Int) := by
      push_cast; ring
    have hp2 : ((2 : Int) ^ (b + 1)) = 2 * ((2 ^ b : Nat) : Int) := by push_cast; ring
    have hrlt : m % 2 ^ (b + 1) < 2 * 2 ^ b := by
      have := Nat.mod_lt m (Nat.pos_pow_of_pos (b + 1) (show 0 < 2 by norm_num))
      have hp : 2 ^ (b + 1) = 2 * 2 ^ b := by rw [Nat.pow_succ]; ring
      omega
    rw [hland, Nat.testBit_eq_decide_le, hmod, hmcast, hp2]
    simp only [decide_eq_true_eq]
    by_cases h : 2 ^ b ≤ m % 2 ^ (b + 1)
    · have hcond : ¬ ((2 : Int) ^ b ≤ 2 * ((2 ^ b : Nat) : Int) - 1
          - ((m % 2 ^ (b + 1) : Nat) : Int)) := by
        rw [hcb]
        have hc1 : ((2 ^ b : Nat) : Int) ≤ ((m % 2 ^ (b + 1) : Nat) : Int) :=
          Nat.cast_le.mpr h
        omega
      rw [if_pos h, if_neg hcond]
      exact Nat.cast_zero
    · have hc1 : ((m % 2 ^ (b + 1) : Nat) : Int) < ((2 ^ b : Nat) : Int) :=
        Nat.cast_lt.mpr (Nat.not_le.mp h)
      have hcond : (2 : Int) ^ b ≤ 2 * ((2 ^ b : Nat) : Int) - 1
          - ((m % 2 ^ (b + 1) : Nat) : Int) := by
        rw [hcb]; omega
      rw [if_neg h, if_pos hcond]
      exact hcb.symm

/-- `x & 2^b` is zero exactly when bit `b` (two's complement) is clear. -/
theorem Int.land_two_pow_eq_zero_iff (x : Int) (b : Nat) :
    Int.land x (2 ^ b) = 0 ↔ ¬ (2 ^ b : Int) ≤ x % 2 ^ (b + 1) := by
  rw [Int.land_two_pow_eq_ite]
  have : (2 ^ b : Int) ≠ 0 := by positivity
  by_cases h : (2 ^ b : Int) ≤ x % 2 ^ (b + 1) <;> simp [h, this]

/-- The code's bit value agrees with the spec-side `specBit`. -/
theorem unpackbit_eq_specBit (x : Int) (b : Nat) :
    (if Int.land x (2 ^ b) = 0 then 0 else 1) = specBit x b := by
  have hb : (0 : Int) < 2 ^ b := by positivity
  have hlt : x % 2 ^ (b + 1) < 2 ^ (b + 1) := Int.emod_lt_of_pos _ (by positivity)
  have hge : (0 : Int) ≤ x % 2 ^ (b + 1) := Int.emod_nonneg _ (by positivity)
  rw [Int.land_two_pow_eq_ite]
  unfold specBit
  by_cases h : (2 ^ b : Int) ≤ x % 2 ^ (b + 1)
  · have hdiv : x % 2 ^ (b + 1) / 2 ^ b = 1 := by
      have hpow : ((2 : Int) ^ (b + 1)) = 2 ^ b * 2 := by ring
      rw [hpow] at hlt
      exact ((@Int.ediv_emod_unique (x % 2 ^ (b + 1)) (2 ^ b)
        (x % 2 ^ (b + 1) - 2 ^ b) 1 hb).mpr ⟨by ring, by omega, by omega⟩).1
    have hne : (2 ^ b : Int) ≠ 0 := by positivity
    simp [h, hdiv, hne]
  · have hdiv : x % 2 ^ (b + 1) / 2 ^ b = 0 :=
      Int.ediv_eq_zero_of_lt hge (by omega)
    simp [h, hdiv]

/-- Split off the top bit: `x mod 2^(n+1) = x mod 2^n + (x & 2^n)`. -/
theorem Int.emod_two_pow_succ (x : Int) (n : Nat) :
    x % (2 ^ (n + 1) : Int) = x % 2 ^ n + Int.land x (2 ^ n) := by
  have hb : (0 : Int) < 2 ^ n := by positivity
  have hdvd : ((2 : Int) ^ n) ∣ 2 ^ (n + 1) := ⟨2, by ring⟩
  have hlow : x % (2 ^ n : Int) = (x % 2 ^ (n + 1)) % 2 ^ n :=
    (Int.emod_emod_of_dvd x hdvd).symm
  have hlt : x % 2 ^ (n + 1) < 2 ^ (n + 1) := Int.emod_lt_of_pos _ (by positivity)
  have hge : (0 : Int) ≤ x % 2 ^ (n + 1) := Int.emod_nonneg _ (by positivity)
  have hpow : ((2 : Int) ^ (n + 1)) = 2 ^ n * 2 := by ring
  rw [Int.land_two_pow_eq_ite, hlow]
  by_cases h : (2 ^ n : Int) ≤ x % 2 ^ (n + 1)
  · have hsub : (x % 2 ^ (n + 1)) % 2 ^ n = x % 2 ^ (n + 1) - 2 ^ n := by
      have h1 : (x % 2 ^ (n + 1) - 2 ^ n) % 2 ^ n = x % 2 ^ (n + 1) % 2 ^ n := by
        rw [Int.emod_eq_emod_iff_emod_sub_eq_zero]
        have heq : x % 2 ^ (n + 1) - 2 ^ n - x % 2 ^ (n + 1) = 2 ^ n * (-1) := by
          ring
        rw [heq]
        exact Int.mul_emod_right _ _
      rw [← h1]
      apply Int.emod_eq_of_lt
      · omega
      · rw [hpow] at hlt; omega
    rw [hsub, if_pos h]
    ring
  · have hid : (x % 2 ^ (n + 1)) % 2 ^ n = x % 2 ^ (n + 1) :=
      Int.emod_eq_of_lt hge (by omega)
    rw [hid, if_neg h]
    ring

/-! ### Helper lemmas about `getD` on mapped lists -/

theorem getD_map_range {α : Type} (f : Nat → α) (n i : Nat) (d : α) (h : i < n) :
    ((List.range n).map f).getD i d = f i := by
  rw [List.getD_eq_getElem?_getD, List.getElem?_map, List.getElem?_range h]
  rfl

theorem getD_map_of_lt {α β : Type} (f : α → β) (l : List α) (i : Nat)
    (d : β) (d' : α) (h : i < l.length) :
    (l.map f).getD i d = f (l.getD i d') := by
  rw [List.getD_eq_getElem?_getD, List.getD_eq_getElem?_getD, List.getElem?_map,
    List.getElem?_eq_getElem h]
  rfl

theorem unpackbitsRow_getD (x : Int) (nb b : Nat) (h : b < nb) :
    (unpackbitsRow x nb).getD b 0 = if Int.land x (2 ^ b) = 0 then 0 else 1 :=
  getD_map_range _ nb b 0 h

theorem unpackbitsRow_length (x : Int) (nb : Nat) :
    (unpackbitsRow x nb).length = nb := by
  unfold unpackbitsRow
  rw [List.length_map, List.length_range]

theorem specBit_eq_zero_or_one (x : Int) (b : Nat) :
    specBit x b = 0 ∨ specBit x b = 1 := by
  rw [← unpackbit_eq_specBit]
  by_cases h : Int.land x (2 ^ b) = 0 <;> simp [h]

theorem bit_times_pow_eq_land (x : Int) (b : Nat) :
    (if Int.land x (2 ^ b) = 0 then (0 : Int) else 1) * 2 ^ b
      = Int.land x (2 ^ b) := by
  rw [Int.land_two_pow_eq_ite]
  by_cases h : (2 ^ b : Int) ≤ x % 2 ^ (b + 1)
  · have : (2 ^ b : Int) ≠ 0 := by positivity
    simp [h, this]
  · simp [h]

theorem sum_bits_eq_emod (x : Int) (n : Nat) :
    ((List.range n).map
      (fun b => (if Int.land x (2 ^ b) = 0 then (0 : Int) else 1) * 2 ^ b)).sum
      = x % 2 ^ n := by
  induction n with
  | zero => simp
  | succ n ih =>
    rw [List.range_succ, List.map_append, List.sum_append, ih]
    simp only [List.map_cons, List.map_nil, List.sum_cons, List.sum_nil]
    rw [bit_times_pow_eq_land, Int.emod_two_pow_succ]
    ring

/-- C2: recombining the bits produced by `unpackbits` as a weighted sum
of `bit * 2^position` recovers the sample modulo `2^num_bits`. -/
theorem unpackbits_recombine (x : Int) (num_bits : Nat) :
    ((List.range num_bits).map
      (fun b => ((unpackbitsRow x num_bits).getD b 0 : Int) * 2 ^ b)).sum
      = x % 2 ^ num_bits := by
  rw [← sum_bits_eq_emod x num_bits]
  congr 1
  apply List.map_congr_left
  intro b hb
  rw [unpackbitsRow_getD x num_bits b (List.mem_range.mp hb)]
  by_cases h : Int.land x (2 ^ b) = 0 <;> simp [h]

/-- C6: on a 1-D integer array, `unpackbits` returns an `(N, num_bits)`
array of zeroes and ones whose entry `[i, b]` is bit `b` of sample `i`,
least-significant bit first. -/
theorem unpackbits_oneD_correct (x : List Int) (num_bits : Nat) :
    (unpackbits x num_bits).length = x.length ∧
    (∀ i, i < x.length →
      ((unpackbits x num_bits).getD i []).length = num_bits) ∧
    (∀ i b, i < x.length → b < num_bits →
      ((unpackbits x num_bits).getD i []).getD b 0 = specBit (x.getD i 0) b ∧
      (((unpackbits x num_bits).getD i []).getD b 0 = 0 ∨
        ((unpackbits x num_bits).getD i []).getD b 0 = 1)) := by
  refine ⟨List.length_map _ _, ?_, ?_⟩
  · intro i hi
    rw [show (unpackbits x num_bits) = x.map (fun s => unpackbitsRow s num_bits) from rfl,
      getD_map_of_lt _ x i [] 0 hi, unpackbitsRow_length]
  · intro i b hi hb
    rw [show (unpackbits x num_bits) = x.map (fun s => unpackbitsRow s num_bits) from rfl,
      getD_map_of_lt _ x i [] 0 hi, unpackbitsRow_getD _ num_bits b hb,
      unpackbit_eq_specBit]
    exact ⟨rfl, specBit_eq_zero_or_one _ b⟩

/-- Closed instance of `unpackbits_oneD_correct` discharging its
hypotheses at a concrete input. -/
theorem unpackbits_oneD_correct_witness :
    ((unpackbits [5, -3] 3).getD 1 []).getD 0 0 = specBit (-3) 0 ∧
    (((unpackbits [5, -3] 3).getD 1 []).getD 0 0 = 0 ∨
      ((unpackbits [5, -3] 3).getD 1 []).getD 0 0 = 1) :=
  (unpackbits_oneD_correct [5, -3] 3).2.2 1 0 (by decide) (by decide)

theorem unpackbits_flatten_length (l : List Int) (nb : Nat) :
    (unpackbits l nb).flatten.length = l.length * nb := by
  rw [List.length_flatten]
  unfold unpackbits
  rw [List.map_map]
  have hconst : (List.map (List.length ∘ fun s => unpackbitsRow s nb) l)
      = List.replicate (List.map (List.length ∘ fun s => unpackbitsRow s nb) l).length nb := by
    apply List.eq_replicate_of_mem
    intro a ha
    rcases List.mem_map.mp ha with ⟨s, _, hs⟩
    rw [← hs]
    exact unpackbitsRow_length s nb
  rw [hconst, List.sum_replicate, smul_eq_mul, List.length_map]

/-- C10: on an input array of any dimensionality (modelled as shape +
row-major data), `unpackbits` succeeds and appends `num_bits` as a
trailing axis. -/
theorem unpackbitsND_shape (x : NDArray Int) (num_bits : Nat)
    (h : x.data.length = x.shape.prod) :
    ∃ y : NDArray Nat, unpackbitsND x num_bits = some y ∧
      y.shape = x.shape ++ [num_bits] ∧
      y.data.length = (x.shape ++ [num_bits]).prod := by
  refine ⟨⟨x.shape ++ [num_bits], (unpackbits x.data num_bits).flatten⟩, ?_, rfl, ?_⟩
  · unfold unpackbitsND
    rw [h]
    simp
  · rw [unpackbits_flatten_length, h, List.prod_append]
    simp

/-- Closed instance of `unpackbitsND_shape` discharging its hypothesis at
a concrete 2×1 input array. -/
theorem unpackbitsND_shape_witness :
    ∃ y : NDArray Nat, unpackbitsND ⟨[2, 1], [3, 4]⟩ 16 = some y ∧
      y.shape = [2, 1] ++ [16] ∧
      y.data.length = ([2, 1] ++ [16]).prod :=
  unpackbitsND_shape ⟨[2, 1], [3, 4]⟩ 16 (by decide)

/-! ### Edge detector (`unpack_npix_sync`, io.py lines 276-311)

Python:
```
dd = unpackbits(syncdat.flatten(),16)
mult = 1
if output_binary:
    return dd
sync_idx_onset = np.where(mult*np.diff(dd,axis = 0)>0)
sync_idx_offset = np.where(mult*np.diff(dd,axis = 0)<0)
onsets = {}
offsets = {}
for ichan in np.unique(sync_idx_onset[1]):
    onsets[ichan] = sync_idx_onset[0][sync_idx_onset[1] == ichan]/srate
for ichan in np.unique(sync_idx_offset[1]):
    offsets[ichan] = sync_idx_offset[0][sync_idx_offset[1] == ichan]/srate
return onsets,offsets
```
(`mult` is the constant `1` and is dropped from the model.)
-/

/-- `np.diff(dd, axis=0)`: row `i` of the result is `dd[i+1] - dd[i]`
(integer subtraction, entrywise). -/
def diffRows (dd : List (List Nat)) : List (List Int) :=
  List.zipWith
    (fun next prev => List.zipWith (fun (a b : Nat) => (a : Int) - (b : Int)) next prev)
    dd.tail dd

/-- Column indices (in increasing order, starting the count at `c0`) of
the entries of one row that satisfy `p`. -/
def whereRow (p : Int → Bool) : List Int → Nat → List Nat
  | [], _ => []
  | v :: vs, c0 => if p v then c0 :: whereRow p vs (c0 + 1) else whereRow p vs (c0 + 1)

/-- `np.where(cond)` on a 2-D array: the `(row, column)` pairs of the
entries satisfying `p`, in row-major (C) order — the order in which numpy
returns the pair of index arrays. -/
def whereGrid (p : Int → Bool) : List (List Int) → Nat → List (Nat × Nat)
  | [], _ => []
  | row :: rows, i0 =>
    (whereRow p row 0).map (fun c => (i0, c)) ++ whereGrid p rows (i0 + 1)

def npWhere (p : Int → Bool) (d : List (List Int)) : List (Nat × Nat) :=
  whereGrid p d 0

/-- `np.unique`: the distinct values, in increasing order. -/
def uniqueSorted (l : List Nat) : List Nat :=
  (List.insertionSort (· ≤ ·) l).dedup

/-- The dictionary-building loop of `unpack_npix_sync`: for every channel
occurring among the column indices (`np.unique(sync_idx[1])`, so in
increasing channel order), the row indices whose column equals that
channel, each divided by `srate`. -/
def eventDict (idx : List (Nat × Nat)) (srate : ℚ) : List (Nat × List ℚ) :=
  (uniqueSorted (idx.map Prod.snd)).map
    (fun ch => (ch, (idx.filter (fun pr => pr.2 == ch)).map (fun pr => (pr.1 : ℚ) / srate)))

/-- `unpack_npix_sync` on a 1-D trigger channel, `output_binary=False`
branch: the pair of event dictionaries `(onsets, offsets)`. -/
def unpack_npix_sync (syncdat : List Int) (srate : ℚ) :
    List (Nat × List ℚ) × List (Nat × List ℚ) :=
  let d := diffRows (unpackbits syncdat 16)
  (eventDict (npWhere (fun v => 0 < v) d) srate,
   eventDict (npWhere (fun v => v < 0) d) srate)

/-- `unpack_npix_sync` including the `output_binary` flag: the input is
flattened (`syncdat.flatten()`, i.e. the row-major data) and unpacked;
with `output_binary=True` the unpacked trace itself is returned. -/
def unpack_npix_sync_full (syncdat : NDArray Int) (srate : ℚ)
    ( output_binary : Bool) :
    Sum (List (List Nat)) (List (Nat × List ℚ) × List (Nat × List ℚ)) :=
  if output_binary then Sum.inl (unpackbits syncdat.data 16)
  else Sum.inr (unpack_npix_sync syncdat.data srate)

/-! ### Spec-side description of the edge detector

These definitions transcribe the specification text: "compute the first
difference along the time axis per channel; a positive difference at
(sample i, channel c) marks a rising edge … Collect, per channel, the
sorted sample indices of rising and falling edges, divide by sampling
rate". -/

/-- Entry `(i, c)` of the unpacked trace (0 outside bounds). -/
def traceAt (syncdat : List Int) (i c : Nat) : Nat :=
  ((unpackbits syncdat 16).getD i []).getD c 0

/-- Spec: the (sorted) sample indices at which channel `c` rises. -/
def risingIdx (syncdat : List Int) (c : Nat) : List Nat :=
  (List.range (syncdat.length - 1)).filter
    (fun i => traceAt syncdat i c < traceAt syncdat (i + 1) c)

/-- Spec: the (sorted) sample indices at which channel `c` falls. -/
def fallingIdx (syncdat : List Int) (c : Nat) : List Nat :=
  (List.range (syncdat.length - 1)).filter
    (fun i => traceAt syncdat (i + 1) c < traceAt syncdat i c)

/-- Spec-side onsets mapping: each of the 16 sync channels with at least
one rising edge, in increasing order, mapped to its rising-edge sample
indices divided by the sampling rate. -/
def specOnsets (syncdat : List Int) (srate : ℚ) : List (Nat × List ℚ) :=
  ((List.range 16).filter (fun c => !(risingIdx syncdat c).isEmpty)).map
    (fun c => (c, (risingIdx syncdat c).map (fun i : Nat => (i : ℚ) / srate)))

/-- Spec-side offsets mapping, analogously for falling edges. -/
def specOffsets (syncdat : List Int) (srate : ℚ) : List (Nat × List ℚ) :=
  ((List.range 16).filter (fun c => !(fallingIdx syncdat c).isEmpty)).map
    (fun c => (c, (fallingIdx syncdat c).map (fun i : Nat => (i : ℚ) / srate)))

/-! ### Lemmas on `whereRow` / `whereGrid` -/

theorem whereRow_shift (p : Int → Bool) (row : List Int) :
    ∀ c0, whereRow p row c0 = (whereRow p row 0).map (fun x => c0 + x) := by
  induction row with
  | nil => intro c0; rfl
  | cons v vs ih =>
    intro c0
    show (if p v then c0 :: whereRow p vs (c0 + 1) else whereRow p vs (c0 + 1))
      = List.map (fun x => c0 + x) (if p v then 0 :: whereRow p vs 1 else whereRow p vs 1)
    have hshift : whereRow p vs (c0 + 1) = (whereRow p vs 1).map (fun x => c0 + x) := by
      rw [ih (c0 + 1), ih 1, List.map_map]
      apply List.map_congr_left
      intro a _
      show c0 + 1 + a = c0 + (1 + a)
      omega
    by_cases hpv : p v
    · rw [if_pos hpv, if_pos hpv, List.map_cons, hshift]
      norm_num
    · rw [if_neg hpv, if_neg hpv]
      exact hshift

theorem whereRow_zero (p : Int → Bool) (row : List Int) :
    whereRow p row 0 = (List.range row.length).filter (fun j => p (row.getD j 0)) := by
  induction row with
  | nil => rfl
  | cons v vs ih =>
    show (if p v then 0 :: whereRow p vs 1 else whereRow p vs 1) = _
    rw [List.length_cons, List.range_succ_eq_map, List.filter_cons]
    have h0 : ((v :: vs).getD 0 0) = v := rfl
    have hmapfilter :
        List.filter (fun j => p ((v :: vs).getD j 0)) (List.map Nat.succ (List.range vs.length))
          = List.map Nat.succ (List.filter (fun j => p (vs.getD j 0)) (List.range vs.length)) := by
      rw [List.filter_map]
      have hfun : ((fun j => p ((v :: vs).getD j 0)) ∘ Nat.succ)
          = fun j => p (vs.getD j 0) := by
        funext j
        show p ((v :: vs).getD (j + 1) 0) = p (vs.getD j 0)
        rw [List.getD_cons_succ]
      rw [hfun]
    have hsucc : whereRow p vs 1 = List.map Nat.succ (whereRow p vs 0) := by
      rw [whereRow_shift p vs 1]
      apply List.map_congr_left
      intro a _
      show 1 + a = a + 1
      omega
    by_cases hpv : p v
    · rw [if_pos hpv, h0, if_pos hpv, hmapfilter, hsucc, ih]
    · rw [if_neg hpv, h0, if_neg hpv, hmapfilter, hsucc, ih]

theorem whereRow_mem_lt (p : Int → Bool) (row : List Int) (c : Nat)
    (h : c ∈ whereRow p row 0) : c < row.length := by
  rw [whereRow_zero] at h
  exact List.mem_range.mp (List.mem_filter.mp h).1

theorem range_filter_beq_and (q : Nat → Bool) (c : Nat) :
    ∀ n, (List.range n).filter (fun j => (j == c) && q j)
      = if c < n ∧ q c then [c] else [] := by
  intro n
  induction n with
  | zero => simp
  | succ n ih =>
    rw [List.range_succ, List.filter_append, ih]
    rcases Nat.lt_trichotomy c n with hlt | heq | hgt
    · have hne : ¬ ((n == c) = true) := by
        rw [beq_iff_eq]; omega
      have hfn : List.filter (fun j => (j == c) && q j) [n] = [] := by
        simp [hne]
      rw [hfn]
      by_cases hq : q c
      · rw [if_pos ⟨hlt, hq⟩, if_pos ⟨by omega, hq⟩, List.append_nil]
      · have h1 : ¬ (c < n ∧ q c = true) := fun h => absurd h.2 hq
        have h2 : ¬ (c < n + 1 ∧ q c = true) := fun h => absurd h.2 hq
        rw [if_neg h1, if_neg h2, List.append_nil]
    · subst heq
      have h1 : ¬ (c < c ∧ q c = true) := fun h => absurd h.1 (Nat.lt_irrefl c)
      rw [if_neg h1, List.nil_append]
      by_cases hq : q c
      · rw [if_pos ⟨Nat.lt_succ_self c, hq⟩]
        simp [hq]
      · have h2 : ¬ (c < c + 1 ∧ q c = true) := fun h => absurd h.2 hq
        rw [if_neg h2]
        simp [hq]
    · have hne : ¬ ((n == c) = true) := by
        rw [beq_iff_eq]; omega
      have h1 : ¬ (c < n ∧ q c = true) := fun h => absurd h.1 (by omega)
      have h2 : ¬ (c < n + 1 ∧ q c = true) := fun h => absurd h.1 (by omega)
      rw [if_neg h1, if_neg h2, List.nil_append]
      simp [hne]

theorem whereGrid_filter_eq (p : Int → Bool) :
    ∀ (rows : List (List Int)) (i0 c : Nat), (∀ row ∈ rows, c < row.length) →
      (whereGrid p rows i0).filter (fun pr => pr.2 == c)
        = ((List.range rows.length).filter
            (fun j => p ((rows.getD j []).getD c 0))).map (fun j => (i0 + j, c)) := by
  intro rows
  induction rows with
  | nil => intro i0 c _; rfl
  | cons row rest ih =>
    intro i0 c hc
    show ((whereRow p row 0).map (fun cc => (i0, cc)) ++ whereGrid p rest (i0 + 1)).filter
        (fun pr => pr.2 == c) = _
    rw [List.filter_append]
    have hfirst : ((whereRow p row 0).map (fun cc => (i0, cc))).filter (fun pr => pr.2 == c)
        = if p (row.getD c 0) then [(i0, c)] else [] := by
      rw [List.filter_map]
      have hcomp : ((fun pr : Nat × Nat => pr.2 == c) ∘ fun cc => (i0, cc))
          = fun cc => cc == c := rfl
      rw [hcomp, whereRow_zero, List.filter_filter, range_filter_beq_and]
      have hclen : c < row.length := hc row (by simp)
      by_cases hq : p (row.getD c 0)
      · rw [if_pos ⟨hclen, hq⟩, if_pos hq]
        rfl
      · rw [if_neg (by tauto), if_neg hq]
        rfl
    have hrest := ih (i0 + 1) c (fun r hr => hc r (List.mem_cons_of_mem _ hr))
    rw [hfirst, hrest, List.length_cons, List.range_succ_eq_map]
    have hmapfilter :
        List.filter (fun j => p (((row :: rest).getD j []).getD c 0))
            (List.map Nat.succ (List.range rest.length))
          = List.map Nat.succ
              (List.filter (fun j => p ((rest.getD j []).getD c 0)) (List.range rest.length)) := by
      rw [List.filter_map]
      have hfun : ((fun j => p (((row :: rest).getD j []).getD c 0)) ∘ Nat.succ)
          = fun j => p ((rest.getD j []).getD c 0) := by
        funext j
        show p (((row :: rest).getD (j + 1) []).getD c 0) = p ((rest.getD j []).getD c 0)
        rw [List.getD_cons_succ]
      rw [hfun]
    have hmapmap :
        (List.map Nat.succ
            (List.filter (fun j => p ((rest.getD j []).getD c 0))
              (List.range rest.length))).map (fun j => (i0 + j, c))
          = (List.filter (fun j => p ((rest.getD j []).getD c 0))
              (List.range rest.length)).map (fun j => (i0 + 1 + j, c)) := by
      rw [List.map_map]
      apply List.map_congr_left
      intro a _
      show (i0 + (a + 1), c) = (i0 + 1 + a, c)
      congr 1
      omega
    by_cases hq : p (row.getD c 0)
    · rw [if_pos hq, List.filter_cons_of_pos (by exact hq), List.map_cons, hmapfilter,
        hmapmap, List.singleton_append]
      rfl
    · rw [if_neg hq, List.filter_cons_of_neg (by exact hq), hmapfilter, hmapmap,
        List.nil_append]

theorem whereGrid_snd_lt (p : Int → Bool) :
    ∀ (rows : List (List Int)) (i0 : Nat) (pr : Nat × Nat),
      pr ∈ whereGrid p rows i0 → ∃ row ∈ rows, pr.2 < row.length := by
  intro rows
  induction rows with
  | nil => intro i0 pr h; cases h
  | cons row rest ih =>
    intro i0 pr h
    rcases List.mem_append.mp h with h1 | h2
    · rcases List.mem_map.mp h1 with ⟨cc, hcc, hpr⟩
      refine ⟨row, by simp, ?_⟩
      rw [← hpr]
      exact whereRow_mem_lt p row cc hcc
    · rcases ih (i0 + 1) pr h2 with ⟨r, hr, hlen⟩
      exact ⟨r, List.mem_cons_of_mem _ hr, hlen⟩

theorem mem_map_snd_iff_filter_ne_nil (idx : List (Nat × Nat)) (c : Nat) :
    c ∈ idx.map Prod.snd ↔ idx.filter (fun pr => pr.2 == c) ≠ [] := by
  constructor
  · intro h
    rcases List.mem_map.mp h with ⟨pr, hpr, hsnd⟩
    intro hnil
    have : pr ∈ idx.filter (fun pr => pr.2 == c) :=
      List.mem_filter.mpr ⟨hpr, by rw [beq_iff_eq]; exact hsnd⟩
    rw [hnil] at this
    cases this
  · intro h
    rcases List.exists_mem_of_ne_nil _ h with ⟨pr, hpr⟩
    rcases List.mem_filter.mp hpr with ⟨hmem, hbeq⟩
    exact List.mem_map.mpr ⟨pr, hmem, beq_iff_eq.mp hbeq⟩

theorem uniqueSorted_eq_range_filter (l : List Nat) (n : Nat)
    (hlt : ∀ a ∈ l, a < n) :
    uniqueSorted l = (List.range n).filter (fun c => c ∈ l) := by
  have hsorted1 : List.Sorted (· ≤ ·) (uniqueSorted l) := by
    apply List.Pairwise.sublist (List.dedup_sublist _)
    exact List.sorted_insertionSort (· ≤ ·) l
  have hsorted2 : List.Sorted (· ≤ ·) ((List.range n).filter (fun c => c ∈ l)) := by
    apply List.Pairwise.sublist (List.filter_sublist _)
    exact (List.pairwise_lt_range n).imp Nat.le_of_lt
  have hnd1 : (uniqueSorted l).Nodup := List.nodup_dedup _
  have hnd2 : ((List.range n).filter (fun c => c ∈ l)).Nodup :=
    (List.nodup_range n).filter _
  have hmem : ∀ a, a ∈ uniqueSorted l ↔ a ∈ (List.range n).filter (fun c => c ∈ l) := by
    intro a
    rw [show uniqueSorted l = (List.insertionSort (· ≤ ·) l).dedup from rfl,
      List.mem_dedup, (List.perm_insertionSort (· ≤ ·) l).mem_iff, List.mem_filter,
      List.mem_range]
    constructor
    · intro h
      exact ⟨hlt a h, by simpa using h⟩
    · intro h
      simpa using h.2
  exact List.eq_of_perm_of_sorted
    ((List.perm_ext_iff_of_nodup hnd1 hnd2).mpr hmem) hsorted1 hsorted2

/-! ### The code's edge detector equals the spec-side description -/

theorem getD_eq_getElem_of_lt {α : Type} (l : List α) (i : Nat) (d : α)
    (h : i < l.length) : l.getD i d = l[i] := by
  rw [List.getD_eq_getElem?_getD, List.getElem?_eq_getElem h]
  rfl

theorem getD_eq_default_of_le {α : Type} (l : List α) (i : Nat) (d : α)
    (h : l.length ≤ i) : l.getD i d = d := by
  rw [List.getD_eq_getElem?_getD, List.getElem?_eq_none h]
  rfl

theorem unpackbits_length (x : List Int) (nb : Nat) :
    (unpackbits x nb).length = x.length :=
  List.length_map _ _

theorem unpackbits_row_mem_length (x : List Int) (row : List Nat)
    (h : row ∈ unpackbits x 16) : row.length = 16 := by
  rcases List.mem_map.mp h with ⟨s, _, hs⟩
  rw [← hs]
  exact unpackbitsRow_length s 16

theorem diffRows_length (dd : List (List Nat)) :
    (diffRows dd).length = dd.length - 1 := by
  unfold diffRows
  rw [List.length_zipWith, List.length_tail]
  exact min_eq_left (Nat.sub_le _ _)

theorem diffRows_row_length (dd : List (List Nat))
    (hdd : ∀ row ∈ dd, row.length = 16) :
    ∀ row ∈ diffRows dd, row.length = 16 := by
  intro row hrow
  rw [List.mem_iff_getElem] at hrow
  rcases hrow with ⟨j, hj, hrow⟩
  have hjt : j < dd.tail.length := by
    have := hj
    rw [diffRows_length] at this
    rw [List.length_tail]
    exact this
  have hjd : j < dd.length := by
    rw [List.length_tail] at hjt
    omega
  have hj1 : j + 1 < dd.length := by
    rw [List.length_tail] at hjt
    omega
  have hz : (diffRows dd)[j]
      = List.zipWith (fun (a b : Nat) => (a : Int) - (b : Int)) dd.tail[j] dd[j] :=
    List.getElem_zipWith
  rw [← hrow, hz, List.length_zipWith, List.getElem_tail,
    hdd _ (List.getElem_mem hj1), hdd _ (List.getElem_mem hjd)]
  rfl

theorem diffRows_entry (dd : List (List Nat)) (hrl : ∀ row ∈ dd, row.length = 16)
    (j c : Nat) (hj : j < dd.length - 1) (hc : c < 16) :
    ((diffRows dd).getD j []).getD c 0
      = (((dd.getD (j + 1) []).getD c 0 : Nat) : Int)
        - (((dd.getD j []).getD c 0 : Nat) : Int) := by
  have hjlen : j < (diffRows dd).length := by rw [diffRows_length]; exact hj
  have hjt : j < dd.tail.length := by rw [List.length_tail]; exact hj
  have hjd : j < dd.length := by omega
  have hj1 : j + 1 < dd.length := by omega
  rw [getD_eq_getElem_of_lt _ _ _ hjlen]
  have hzip : (diffRows dd)[j]
      = List.zipWith (fun (a b : Nat) => (a : Int) - (b : Int)) dd[j + 1] dd[j] := by
    have hz : (diffRows dd)[j]
        = List.zipWith (fun (a b : Nat) => (a : Int) - (b : Int)) dd.tail[j] dd[j] :=
      List.getElem_zipWith
    rw [hz, List.getElem_tail]
  rw [hzip]
  have hl1 : dd[j + 1].length = 16 := hrl _ (List.getElem_mem hj1)
  have hl0 : dd[j].length = 16 := hrl _ (List.getElem_mem hjd)
  have hcz : c < (List.zipWith (fun (a b : Nat) => (a : Int) - (b : Int))
      dd[j + 1] dd[j]).length := by
    rw [List.length_zipWith, hl1, hl0]
    simpa using hc
  rw [getD_eq_getElem_of_lt _ _ _ hcz, List.getElem_zipWith,
    getD_eq_getElem_of_lt dd (j + 1) [] hj1, getD_eq_getElem_of_lt dd j [] hjd,
    getD_eq_getElem_of_lt dd[j + 1] c 0 (by omega), getD_eq_getElem_of_lt dd[j] c 0 (by omega)]

theorem npWhere_pos_filter (syncdat : List Int) (c : Nat) (hc : c < 16) :
    (npWhere (fun v => 0 < v) (diffRows (unpackbits syncdat 16))).filter
        (fun pr => pr.2 == c)
      = (risingIdx syncdat c).map (fun j => (j, c)) := by
  have hrl : ∀ row ∈ unpackbits syncdat 16, row.length = 16 :=
    fun row hrow => unpackbits_row_mem_length syncdat row hrow
  have hcrows : ∀ row ∈ diffRows (unpackbits syncdat 16), c < row.length := by
    intro row hrow
    rw [diffRows_row_length _ hrl row hrow]
    exact hc
  show (whereGrid (fun v => 0 < v) (diffRows (unpackbits syncdat 16)) 0).filter
      (fun pr => pr.2 == c) = _
  rw [whereGrid_filter_eq _ _ 0 c hcrows]
  have hzero : ∀ l : List Nat, l.map (fun j => ((0 + j : Nat), c)) = l.map (fun j => (j, c)) := by
    intro l
    apply List.map_congr_left
    intro a _
    rw [Nat.zero_add]
  rw [hzero]
  congr 1
  rw [diffRows_length, unpackbits_length]
  apply List.filter_congr
  intro j hj
  have hjlt : j < syncdat.length - 1 := List.mem_range.mp hj
  have hjd : j < (unpackbits syncdat 16).length - 1 := by
    rw [unpackbits_length]
    exact hjlt
  show decide (0 < ((diffRows (unpackbits syncdat 16)).getD j []).getD c 0) = _
  rw [diffRows_entry _ hrl j c hjd hc, decide_eq_decide, Int.sub_pos, Nat.cast_lt]
  exact Iff.rfl

theorem npWhere_neg_filter (syncdat : List Int) (c : Nat) (hc : c < 16) :
    (npWhere (fun v => v < 0) (diffRows (unpackbits syncdat 16))).filter
        (fun pr => pr.2 == c)
      = (fallingIdx syncdat c).map (fun j => (j, c)) := by
  have hrl : ∀ row ∈ unpackbits syncdat 16, row.length = 16 :=
    fun row hrow => unpackbits_row_mem_length syncdat row hrow
  have hcrows : ∀ row ∈ diffRows (unpackbits syncdat 16), c < row.length := by
    intro row hrow
    rw [diffRows_row_length _ hrl row hrow]
    exact hc
  show (whereGrid (fun v => v < 0) (diffRows (unpackbits syncdat 16)) 0).filter
      (fun pr => pr.2 == c) = _
  rw [whereGrid_filter_eq _ _ 0 c hcrows]
  have hzero : ∀ l : List Nat, l.map (fun j => ((0 + j : Nat), c)) = l.map (fun j => (j, c)) := by
    intro l
    apply List.map_congr_left
    intro a _
    rw [Nat.zero_add]
  rw [hzero]
  congr 1
  rw [diffRows_length, unpackbits_length]
  apply List.filter_congr
  intro j hj
  have hjlt : j < syncdat.length - 1 := List.mem_range.mp hj
  have hjd : j < (unpackbits syncdat 16).length - 1 := by
    rw [unpackbits_length]
    exact hjlt
  show decide (((diffRows (unpackbits syncdat 16)).getD j []).getD c 0 < 0) = _
  rw [diffRows_entry _ hrl j c hjd hc, decide_eq_decide, sub_neg, Nat.cast_lt]
  exact Iff.rfl

theorem npWhere_snd_lt_16 (p : Int → Bool) (syncdat : List Int) (pr : Nat × Nat)
    (h : pr ∈ npWhere p (diffRows (unpackbits syncdat 16))) : pr.2 < 16 := by
  rcases whereGrid_snd_lt p _ 0 pr h with ⟨row, hrow, hlen⟩
  rw [diffRows_row_length _ (fun r hr => unpackbits_row_mem_length syncdat r hr) row hrow]
    at hlen
  exact hlen

theorem eventDict_pos_eq_specOnsets (syncdat : List Int) (srate : ℚ) :
    eventDict (npWhere (fun v => 0 < v) (diffRows (unpackbits syncdat 16))) srate
      = specOnsets syncdat srate := by
  unfold eventDict specOnsets
  have hbound : ∀ a ∈ (npWhere (fun v => 0 < v)
      (diffRows (unpackbits syncdat 16))).map Prod.snd, a < 16 := by
    intro a ha
    rcases List.mem_map.mp ha with ⟨pr, hpr, hsnd⟩
    rw [← hsnd]
    exact npWhere_snd_lt_16 _ syncdat pr hpr
  rw [uniqueSorted_eq_range_filter _ 16 hbound]
  have hfeq : ∀ x ∈ List.range 16,
      (decide (x ∈ (npWhere (fun v => 0 < v)
          (diffRows (unpackbits syncdat 16))).map Prod.snd))
        = !(risingIdx syncdat x).isEmpty := by
    intro x hx
    have hx16 := List.mem_range.mp hx
    have hiff : (x ∈ (npWhere (fun v => 0 < v)
        (diffRows (unpackbits syncdat 16))).map Prod.snd)
          ↔ risingIdx syncdat x ≠ [] := by
      rw [mem_map_snd_iff_filter_ne_nil, npWhere_pos_filter syncdat x hx16,
        ne_eq, List.map_eq_nil_iff, ← ne_eq]
    by_cases hr : risingIdx syncdat x = []
    · have h1 : ¬ (x ∈ (npWhere (fun v => 0 < v)
          (diffRows (unpackbits syncdat 16))).map Prod.snd) :=
        fun h => (hiff.mp h) hr
      have h2 : (risingIdx syncdat x).isEmpty = true := List.isEmpty_eq_true.mpr hr
      rw [h2]
      simp [h1]
    · have h1 : x ∈ (npWhere (fun v => 0 < v)
          (diffRows (unpackbits syncdat 16))).map Prod.snd := hiff.mpr hr
      have h2 : (risingIdx syncdat x).isEmpty = false := by
        cases hE : (risingIdx syncdat x).isEmpty
        · rfl
        · exact absurd (List.isEmpty_eq_true.mp hE) hr
      rw [h2]
      simp [h1]
  rw [List.filter_congr hfeq]
  apply List.map_congr_left
  intro x hxmem
  have hx16 : x < 16 := List.mem_range.mp (List.mem_filter.mp hxmem).1
  rw [npWhere_pos_filter syncdat x hx16, List.map_map]
  rfl

theorem eventDict_neg_eq_specOffsets (syncdat : List Int) (srate : ℚ) :
    eventDict (npWhere (fun v => v < 0) (diffRows (unpackbits syncdat 16))) srate
      = specOffsets syncdat srate := by
  unfold eventDict specOffsets
  have hbound : ∀ a ∈ (npWhere (fun v => v < 0)
      (diffRows (unpackbits syncdat 16))).map Prod.snd, a < 16 := by
    intro a ha
    rcases List.mem_map.mp ha with ⟨pr, hpr, hsnd⟩
    rw [← hsnd]
    exact npWhere_snd_lt_16 _ syncdat pr hpr
  rw [uniqueSorted_eq_range_filter _ 16 hbound]
  have hfeq : ∀ x ∈ List.range 16,
      (decide (x ∈ (npWhere (fun v => v < 0)
          (diffRows (unpackbits syncdat 16))).map Prod.snd))
        = !(fallingIdx syncdat x).isEmpty := by
    intro x hx
    have hx16 := List.mem_range.mp hx
    have hiff : (x ∈ (npWhere (fun v => v < 0)
        (diffRows (unpackbits syncdat 16))).map Prod.snd)
          ↔ fallingIdx syncdat x ≠ [] := by
      rw [mem_map_snd_iff_filter_ne_nil, npWhere_neg_filter syncdat x hx16,
        ne_eq, List.map_eq_nil_iff, ← ne_eq]
    by_cases hr : fallingIdx syncdat x = []
    · have h1 : ¬ (x ∈ (npWhere (fun v => v < 0)
          (diffRows (unpackbits syncdat 16))).map Prod.snd) :=
        fun h => (hiff.mp h) hr
      have h2 : (fallingIdx syncdat x).isEmpty = true := List.isEmpty_eq_true.mpr hr
      rw [h2]
      simp [h1]
    · have h1 : x ∈ (npWhere (fun v => v < 0)
          (diffRows (unpackbits syncdat 16))).map Prod.snd := hiff.mpr hr
      have h2 : (fallingIdx syncdat x).isEmpty = false := by
        cases hE : (fallingIdx syncdat x).isEmpty
        · rfl
        · exact absurd (List.isEmpty_eq_true.mp hE) hr
      rw [h2]
      simp [h1]
  rw [List.filter_congr hfeq]
  apply List.map_congr_left
  intro x hxmem
  have hx16 : x < 16 := List.mem_range.mp (List.mem_filter.mp hxmem).1
  rw [npWhere_neg_filter syncdat x hx16, List.map_map]
  rfl

/-- The code's `unpack_npix_sync` equals the pair of spec-side mappings. -/
theorem unpack_eq_specPair (syncdat : List Int) (srate : ℚ) :
    unpack_npix_sync syncdat srate
      = (specOnsets syncdat srate, specOffsets syncdat srate) := by
  show (eventDict (npWhere (fun v => 0 < v) (diffRows (unpackbits syncdat 16))) srate,
      eventDict (npWhere (fun v => v < 0) (diffRows (unpackbits syncdat 16))) srate) = _
  rw [eventDict_pos_eq_specOnsets, eventDict_neg_eq_specOffsets]

/-- C1: `unpack_npix_sync` (with `output_binary=False`) performs first
differences of the unpacked trace per channel, treats positive
differences as rising and negative as falling edges, and returns the
onsets/offsets mappings sending each channel to its sorted edge sample
indices divided by `srate`. -/
theorem unpack_npix_sync_correct (syncdat : List Int) (srate : ℚ) :
    unpack_npix_sync syncdat srate
      = (specOnsets syncdat srate, specOffsets syncdat srate)
    ∧ (∀ c, List.Sorted (· < ·) (risingIdx syncdat c)
        ∧ List.Sorted (· < ·) (fallingIdx syncdat c)) := by
  refine ⟨unpack_eq_specPair syncdat srate, fun c => ⟨?_, ?_⟩⟩
  · exact List.Pairwise.sublist (List.filter_sublist _) (List.pairwise_lt_range _)
  · exact List.Pairwise.sublist (List.filter_sublist _) (List.pairwise_lt_range _)

/-! ### Sparse keys (C4) and the single-step signal (C3) -/

theorem getD_replicate {α : Type} (n : Nat) (a : α) (i : Nat) (d : α) :
    (List.replicate n a).getD i d = if i < n then a else d := by
  rw [List.getD_eq_getElem?_getD, List.getElem?_replicate]
  by_cases h : i < n
  · rw [if_pos h, if_pos h]
    rfl
  · rw [if_neg h, if_neg h]
    rfl

theorem traceAt_of_lt (syncdat : List Int) (i c : Nat) (h : i < syncdat.length) :
    traceAt syncdat i c = (unpackbitsRow (syncdat.getD i 0) 16).getD c 0 := by
  unfold traceAt
  rw [show unpackbits syncdat 16 = syncdat.map (fun s => unpackbitsRow s 16) from rfl,
    getD_map_of_lt _ syncdat i [] 0 h]

theorem traceAt_of_ge (syncdat : List Int) (i c : Nat) (h : syncdat.length ≤ i) :
    traceAt syncdat i c = 0 := by
  unfold traceAt
  rw [getD_eq_default_of_le _ i [] (by rw [unpackbits_length]; exact h)]
  rfl

theorem unpackbitsRow_zero_getD (c : Nat) :
    (unpackbitsRow (0 : Int) 16).getD c 0 = 0 := by
  by_cases hc : c < 16
  · rw [unpackbitsRow_getD _ 16 c hc]
    have hland : Int.land 0 (2 ^ c) = 0 := by
      rw [Int.land_two_pow_eq_ite]
      have : ¬ ((2 ^ c : Int) ≤ 0 % 2 ^ (c + 1)) := by
        rw [Int.zero_emod]
        have : (0 : Int) < 2 ^ c := by positivity
        omega
      rw [if_neg this]
    rw [if_pos hland]
  · rw [getD_eq_default_of_le _ c 0 (by rw [unpackbitsRow_length]; omega)]

theorem specOnsets_keys (syncdat : List Int) (srate : ℚ) :
    (specOnsets syncdat srate).map Prod.fst
      = (List.range 16).filter (fun c => !(risingIdx syncdat c).isEmpty) := by
  unfold specOnsets
  rw [List.map_map]
  exact List.map_id _

theorem specOffsets_keys (syncdat : List Int) (srate : ℚ) :
    (specOffsets syncdat srate).map Prod.fst
      = (List.range 16).filter (fun c => !(fallingIdx syncdat c).isEmpty) := by
  unfold specOffsets
  rw [List.map_map]
  exact List.map_id _

theorem risingIdx_replicate (n : Nat) (v : Int) (c : Nat) :
    risingIdx (List.replicate n v) c = [] := by
  unfold risingIdx
  rw [List.filter_eq_nil_iff]
  intro i hi
  have hlen : (List.replicate n v).length = n := List.length_replicate n v
  have hin : i < n - 1 := by
    have := List.mem_range.mp hi
    rw [hlen] at this
    exact this
  have h1 : traceAt (List.replicate n v) i c = (unpackbitsRow v 16).getD c 0 := by
    rw [traceAt_of_lt _ i c (by rw [hlen]; omega), getD_replicate, if_pos (by omega)]
  have h2 : traceAt (List.replicate n v) (i + 1) c = (unpackbitsRow v 16).getD c 0 := by
    rw [traceAt_of_lt _ (i + 1) c (by rw [hlen]; omega), getD_replicate, if_pos (by omega)]
  rw [h1, h2]
  simp

theorem fallingIdx_replicate (n : Nat) (v : Int) (c : Nat) :
    fallingIdx (List.replicate n v) c = [] := by
  unfold fallingIdx
  rw [List.filter_eq_nil_iff]
  intro i hi
  have hlen : (List.replicate n v).length = n := List.length_replicate n v
  have hin : i < n - 1 := by
    have := List.mem_range.mp hi
    rw [hlen] at this
    exact this
  have h1 : traceAt (List.replicate n v) i c = (unpackbitsRow v 16).getD c 0 := by
    rw [traceAt_of_lt _ i c (by rw [hlen]; omega), getD_replicate, if_pos (by omega)]
  have h2 : traceAt (List.replicate n v) (i + 1) c = (unpackbitsRow v 16).getD c 0 := by
    rw [traceAt_of_lt _ (i + 1) c (by rw [hlen]; omega), getD_replicate, if_pos (by omega)]
  rw [h1, h2]
  simp

theorem specOnsets_eq_nil_of_no_rising (syncdat : List Int) (srate : ℚ)
    (h : ∀ c, risingIdx syncdat c = []) : specOnsets syncdat srate = [] := by
  unfold specOnsets
  have hfil : (List.range 16).filter (fun c => !(risingIdx syncdat c).isEmpty) = [] := by
    rw [List.filter_eq_nil_iff]
    intro c _
    rw [h c]
    simp
  rw [hfil]
  rfl

theorem specOffsets_eq_nil_of_no_falling (syncdat : List Int) (srate : ℚ)
    (h : ∀ c, fallingIdx syncdat c = []) : specOffsets syncdat srate = [] := by
  unfold specOffsets
  have hfil : (List.range 16).filter (fun c => !(fallingIdx syncdat c).isEmpty) = [] := by
    rw [List.filter_eq_nil_iff]
    intro c _
    rw [h c]
    simp
  rw [hfil]
  rfl

/-- C4: a channel with no rising (resp. falling) transitions is absent as
a key from the onsets (resp. offsets) mapping, and a constant (all-zero or
all-one) sync signal yields two empty mappings. -/
theorem channels_without_transitions_absent (syncdat : List Int) (srate : ℚ) (c : Nat) :
    (risingIdx syncdat c = [] →
      c ∉ (unpack_npix_sync syncdat srate).1.map Prod.fst)
    ∧ (fallingIdx syncdat c = [] →
      c ∉ (unpack_npix_sync syncdat srate).2.map Prod.fst)
    ∧ (∀ (n : Nat) (v : Int), syncdat = List.replicate n v →
      unpack_npix_sync syncdat srate = ([], [])) := by
  refine ⟨?_, ?_, ?_⟩
  · intro hr hmem
    rw [unpack_eq_specPair] at hmem
    rw [show (specOnsets syncdat srate, specOffsets syncdat srate).1
      = specOnsets syncdat srate from rfl, specOnsets_keys] at hmem
    rcases List.mem_filter.mp hmem with ⟨_, hcond⟩
    rw [hr] at hcond
    simp at hcond
  · intro hf hmem
    rw [unpack_eq_specPair] at hmem
    rw [show (specOnsets syncdat srate, specOffsets syncdat srate).2
      = specOffsets syncdat srate from rfl, specOffsets_keys] at hmem
    rcases List.mem_filter.mp hmem with ⟨_, hcond⟩
    rw [hf] at hcond
    simp at hcond
  · intro n v hconst
    subst hconst
    rw [unpack_eq_specPair,
      specOnsets_eq_nil_of_no_rising _ srate (fun ch => risingIdx_replicate n v ch),
      specOffsets_eq_nil_of_no_falling _ srate (fun ch => fallingIdx_replicate n v ch)]

/-- Closed instance of `channels_without_transitions_absent`: a constant
(all-zero) two-sample signal yields empty onset and offset mappings. -/
theorem channels_without_transitions_absent_witness :
    unpack_npix_sync (List.replicate 2 (0 : Int)) 1 = ([], []) :=
  (channels_without_transitions_absent (List.replicate 2 (0 : Int)) 1 0).2.2 2 0 rfl

theorem range_filter_beq (n k : Nat) (h : k < n) :
    (List.range n).filter (fun j => j == k) = [k] := by
  have hcon : (List.range n).filter (fun j => j == k)
      = (List.range n).filter (fun j => (j == k) && (fun _ : Nat => true) j) := by
    apply List.filter_congr
    intro j _
    simp
  rw [hcon, range_filter_beq_and]
  rw [if_pos ⟨h, rfl⟩]

theorem stepRow_getD (c c' : Nat) (hc : c < 16) (hc' : c' < 16) :
    (unpackbitsRow ((2 : Int) ^ c) 16).getD c' 0 = if c' = c then 1 else 0 := by
  rw [unpackbitsRow_getD _ 16 c' hc']
  have hland := Int.land_two_pow_eq_ite ((2 : Int) ^ c) c'
  by_cases hcc : c' = c
  · subst hcc
    have hmod : ((2 : Int) ^ c') % 2 ^ (c' + 1) = 2 ^ c' := by
      apply Int.emod_eq_of_lt
      · positivity
      · have : ((2 : Int) ^ (c' + 1)) = 2 * 2 ^ c' := by ring
        rw [this]
        have hpos : (0 : Int) < 2 ^ c' := by positivity
        omega
    rw [hmod, if_pos (le_refl _)] at hland
    have hne : Int.land ((2 : Int) ^ c') (2 ^ c') ≠ 0 := by
      rw [hland]
      positivity
    rw [if_neg hne, if_pos rfl]
  · have hzero : Int.land ((2 : Int) ^ c) (2 ^ c') = 0 := by
      rcases Nat.lt_or_ge c c' with hlt | hge
      · have hmod : ((2 : Int) ^ c) % 2 ^ (c' + 1) = 2 ^ c := by
          apply Int.emod_eq_of_lt
          · positivity
          · exact pow_lt_pow_right₀ (by norm_num) (by omega)
        rw [hmod] at hland
        have hnotle : ¬ ((2 : Int) ^ c' ≤ 2 ^ c) := by
          rw [not_le]
          exact pow_lt_pow_right₀ (by norm_num) hlt
        rw [if_neg hnotle] at hland
        exact hland
      · have hge' : c' + 1 ≤ c := by omega
        have hdvd : ((2 : Int) ^ (c' + 1)) ∣ 2 ^ c := pow_dvd_pow 2 hge'
        have hmod : ((2 : Int) ^ c) % 2 ^ (c' + 1) = 0 := Int.emod_eq_zero_of_dvd hdvd
        rw [hmod] at hland
        have hnotle : ¬ ((2 : Int) ^ c' ≤ 0) := by
          rw [not_le]
          positivity
        rw [if_neg hnotle] at hland
        exact hland
    rw [if_pos hzero, if_neg hcc]

theorem step_length (c k m : Nat) :
    (List.replicate (k + 1) 0 ++ List.replicate m ((2 : Int) ^ c)).length
      = (k + 1) + m := by
  rw [List.length_append, List.length_replicate, List.length_replicate]

theorem step_getD (c k m i : Nat) :
    (List.replicate (k + 1) 0 ++ List.replicate m ((2 : Int) ^ c)).getD i 0
      = if i < k + 1 then 0 else if i < (k + 1) + m then (2 : Int) ^ c else 0 := by
  by_cases h1 : i < k + 1
  · rw [List.getD_append _ _ _ i (by rw [List.length_replicate]; exact h1),
      getD_replicate, if_pos h1, if_pos h1]
  · rw [List.getD_append_right _ _ _ i (by rw [List.length_replicate]; omega),
      List.length_replicate, getD_replicate, if_neg h1]
    by_cases h2 : i < (k + 1) + m
    · rw [if_pos (by omega), if_pos h2]
    · rw [if_neg (by omega), if_neg h2]

theorem step_traceAt (c k m i c' : Nat) (hc : c < 16) (hc' : c' < 16) :
    traceAt (List.replicate (k + 1) 0 ++ List.replicate m ((2 : Int) ^ c)) i c'
      = if (k + 1 ≤ i ∧ i < (k + 1) + m) ∧ c' = c then 1 else 0 := by
  by_cases hi : i < (k + 1) + m
  · rw [traceAt_of_lt _ i c' (by rw [step_length]; exact hi), step_getD]
    by_cases h1 : i < k + 1
    · rw [if_pos h1, unpackbitsRow_zero_getD, if_neg (by omega)]
    · rw [if_neg h1, if_pos hi, stepRow_getD c c' hc hc']
      by_cases hcc : c' = c
      · rw [if_pos hcc, if_pos ⟨⟨by omega, hi⟩, hcc⟩]
      · rw [if_neg hcc, if_neg (by tauto)]
  · rw [traceAt_of_ge _ i c' (by rw [step_length]; omega), if_neg (by omega)]

theorem risingIdx_step (c k m c' : Nat) (hc : c < 16) (hc' : c' < 16) (hm : 1 ≤ m) :
    risingIdx (List.replicate (k + 1) 0 ++ List.replicate m ((2 : Int) ^ c)) c'
      = if c' = c then [k] else [] := by
  unfold risingIdx
  rw [step_length]
  have hN1 : (k + 1) + m - 1 = k + m := by omega
  rw [hN1]
  by_cases hcc : c' = c
  · subst hcc
    rw [if_pos rfl]
    have hcon : ∀ i ∈ List.range (k + m),
        (decide (traceAt (List.replicate (k + 1) 0 ++ List.replicate m ((2 : Int) ^ c')) i c'
          < traceAt (List.replicate (k + 1) 0 ++ List.replicate m ((2 : Int) ^ c')) (i + 1) c'))
        = (i == k) := by
      intro i hi
      have hik : i < k + m := List.mem_range.mp hi
      rw [step_traceAt c' k m i c' hc hc', step_traceAt c' k m (i + 1) c' hc hc']
      rcases Nat.lt_trichotomy i k with hlt | heq | hgt
      · rw [if_neg (by omega), if_neg (by omega)]
        have : (i == k) = false := by rw [beq_eq_false_iff_ne]; omega
        rw [this]
        simp
      · subst heq
        rw [if_neg (by omega), if_pos ⟨⟨by omega, by omega⟩, rfl⟩]
        have : (i == i) = true := beq_self_eq_true i
        rw [this]
        simp
      · rw [if_pos ⟨⟨by omega, by omega⟩, rfl⟩, if_pos ⟨⟨by omega, by omega⟩, rfl⟩]
        have : (i == k) = false := by rw [beq_eq_false_iff_ne]; omega
        rw [this]
        simp
    rw [List.filter_congr hcon]
    exact range_filter_beq (k + m) k (by omega)
  · rw [if_neg hcc, List.filter_eq_nil_iff]
    intro i _
    rw [step_traceAt c k m i c' hc hc', step_traceAt c k m (i + 1) c' hc hc',
      if_neg (by tauto), if_neg (by tauto)]
    simp

theorem fallingIdx_step (c k m c' : Nat) (hc : c < 16) (hc' : c' < 16) :
    fallingIdx (List.replicate (k + 1) 0 ++ List.replicate m ((2 : Int) ^ c)) c'
      = [] := by
  unfold fallingIdx
  rw [List.filter_eq_nil_iff]
  intro i hi
  have hik : i < (List.replicate (k + 1) 0 ++ List.replicate m ((2 : Int) ^ c)).length - 1 :=
    List.mem_range.mp hi
  rw [step_length] at hik
  rw [step_traceAt c k m i c' hc hc', step_traceAt c k m (i + 1) c' hc hc']
  by_cases hcc : c' = c
  · by_cases h1 : k + 1 ≤ i
    · rw [if_pos (show ((k + 1 ≤ i + 1 ∧ i + 1 < (k + 1) + m) ∧ c' = c)
          from ⟨⟨by omega, by omega⟩, hcc⟩),
        if_pos (show ((k + 1 ≤ i ∧ i < (k + 1) + m) ∧ c' = c)
          from ⟨⟨h1, by omega⟩, hcc⟩)]
      simp
    · rw [if_neg (show ¬ ((k + 1 ≤ i ∧ i < (k + 1) + m) ∧ c' = c)
          from fun hcon => h1 hcon.1.1)]
      simp
  · rw [if_neg (show ¬ ((k + 1 ≤ i + 1 ∧ i + 1 < (k + 1) + m) ∧ c' = c)
        from fun hcon => hcc hcon.2),
      if_neg (show ¬ ((k + 1 ≤ i ∧ i < (k + 1) + m) ∧ c' = c)
        from fun hcon => hcc hcon.2)]
    simp

/-- C3: a step signal on sync line `c` that is low for samples `0..k` and
high afterwards produces exactly one onset, for channel `c`, at time
`k / srate`, and no offsets. -/
theorem step_signal_single_onset (c k m : Nat) (srate : ℚ)
    (hc : c < 16) (hm : 1 ≤ m) :
    unpack_npix_sync (List.replicate (k + 1) 0 ++ List.replicate m ((2 : Int) ^ c)) srate
      = ([(c, [(k : ℚ) / srate])], []) := by
  rw [unpack_eq_specPair]
  have honsets : specOnsets (List.replicate (k + 1) 0 ++ List.replicate m ((2 : Int) ^ c))
      srate = [(c, [(k : ℚ) / srate])] := by
    unfold specOnsets
    have hfil : (List.range 16).filter
        (fun ch => !(risingIdx (List.replicate (k + 1) 0
          ++ List.replicate m ((2 : Int) ^ c)) ch).isEmpty) = [c] := by
      have hcon : ∀ ch ∈ List.range 16,
          (!(risingIdx (List.replicate (k + 1) 0
            ++ List.replicate m ((2 : Int) ^ c)) ch).isEmpty) = (ch == c) := by
        intro ch hch
        have hch16 := List.mem_range.mp hch
        rw [risingIdx_step c k m ch hc hch16 hm]
        by_cases hcc : ch = c
        · rw [if_pos hcc]
          have : (ch == c) = true := by rw [beq_iff_eq]; exact hcc
          rw [this]
          rfl
        · rw [if_neg hcc]
          have : (ch == c) = false := by rw [beq_eq_false_iff_ne]; exact hcc
          rw [this]
          rfl
      rw [List.filter_congr hcon]
      exact range_filter_beq 16 c hc
    rw [hfil, List.map_cons, List.map_nil, risingIdx_step c k m c hc hc hm, if_pos rfl]
    rfl
  have hoffsets : specOffsets (List.replicate (k + 1) 0 ++ List.replicate m ((2 : Int) ^ c))
      srate = [] := by
    apply specOffsets_eq_nil_of_no_falling
    intro ch
    by_cases hch : ch < 16
    · exact fallingIdx_step c k m ch hc hch
    · unfold fallingIdx
      rw [List.filter_eq_nil_iff]
      intro i _
      have hrow : ∀ j, traceAt (List.replicate (k + 1) 0
          ++ List.replicate m ((2 : Int) ^ c)) j ch = 0 ∨
          traceAt (List.replicate (k + 1) 0
          ++ List.replicate m ((2 : Int) ^ c)) j ch = 0 := by
        intro j
        left
        by_cases hj : j < (List.replicate (k + 1) 0 ++ List.replicate m ((2 : Int) ^ c)).length
        · rw [traceAt_of_lt _ j ch hj]
          exact getD_eq_default_of_le _ ch 0 (by rw [unpackbitsRow_length]; omega)
        · exact traceAt_of_ge _ j ch (by omega)
      rcases hrow i with h1 | h1
      all_goals rcases hrow (i + 1) with h2 | h2
      all_goals rw [h1, h2]; simp
  rw [honsets, hoffsets]

/-- Closed instance of `step_signal_single_onset` at `c = 2`, `k = 1`,
`m = 1`, `srate = 2`. -/
theorem step_signal_single_onset_witness :
    unpack_npix_sync (List.replicate 2 0 ++ List.replicate 1 ((2 : Int) ^ 2)) 2
      = ([(2, [(1 : ℚ) / 2])], []) :=
  step_signal_single_onset 2 1 1 2 (by decide) (by decide)

/-! ### `output_binary` early return (C5) -/

/-- C5: with `output_binary=True`, `unpack_npix_sync` performs no edge
detection and returns exactly `unpackbits` applied to the flattened
input with bit width 16. -/
theorem output_binary_returns_unpacked_trace (syncdat : NDArray Int) (srate : ℚ) :
    unpack_npix_sync_full syncdat srate true
      = Sum.inl (unpackbits syncdat.data 16) := rfl

/-! ### `map_binary` (io.py lines 226-274)

Python (read path, file exists, `nsamples=None`):
```
nsamples = os.path.getsize(fname) / (nchannels * dt.itemsize)
ret = np.memmap(fname, mode=mode, dtype=dt, shape=(int(nsamples), int(nchannels)))
if transpose:
    ret = ret.transpose([1, 0])
return ret
```
The memory map views the file as consecutive little-endian 16-bit signed
integers, laid out row-major over the shape `(nsamples, nchannels)`. -/

/-- Two bytes, little endian, as a 16-bit signed integer. -/
def decodeInt16 (lo hi : Nat) : Int :=
  let v := lo % 256 + 256 * (hi % 256)
  if v < 2 ^ 15 then (v : Int) else (v : Int) - 2 ^ 16

/-- The file's bytes as a stream of int16 samples (`dtype=np.int16`
little-endian view); a trailing odd byte is not part of any sample. -/
def int16Stream : List Nat → List Int
  | lo :: hi :: rest => decodeInt16 lo hi :: int16Stream rest
  | _ => []

/-- `map_binary` on an existing file opened read-only with
`nsamples=None`: the row-major `(nsamples, nchannels)` int16 matrix,
transposed when `transpose` is set. -/
def map_binary (file : List Nat) (nchannels : Nat) (transpose : Bool) :
    List (List Int) :=
  let nsamples := file.length / (nchannels * 2)
  let stream := int16Stream file
  let mat := (List.range nsamples).map
    (fun t => (stream.drop (t * nchannels)).take nchannels)
  if transpose then mat.transpose else mat

theorem int16Stream_length (file : List Nat) :
    (int16Stream file).length = file.length / 2 := by
  induction file using int16Stream.induct with
  | case1 lo hi rest ih =>
    show (decodeInt16 lo hi :: int16Stream rest).length = (rest.length + 2) / 2
    rw [List.length_cons, ih]
    omega
  | case2 l h1 =>
    match l, h1 with
    | [], _ => rfl
    | [x], _ =>
      have h : int16Stream [x] = [] := rfl
      rw [h]
      simp
    | lo :: hi :: rest, h1 => exact (h1 lo hi rest rfl).elim

theorem int16Stream_getD (k : Nat) :
    ∀ (file : List Nat), 2 * k + 1 < file.length →
      (int16Stream file).getD k 0
        = decodeInt16 (file.getD (2 * k) 0) (file.getD (2 * k + 1) 0) := by
  induction k with
  | zero =>
    intro file hlen
    match file, hlen with
    | lo :: hi :: rest, _ => rfl
  | succ k ih =>
    intro file hlen
    match file, hlen with
    | lo :: hi :: rest, hlen =>
      have hl : 2 * k + 1 < rest.length := by
        simp only [List.length_cons] at hlen
        omega
      show (decodeInt16 lo hi :: int16Stream rest).getD (k + 1) 0 = _
      rw [List.getD_cons_succ, ih rest hl]
      have h1 : (lo :: hi :: rest).getD (2 * (k + 1)) 0 = rest.getD (2 * k) 0 := by
        have he : 2 * (k + 1) = (2 * k + 1) + 1 := by omega
        rw [he, List.getD_cons_succ, List.getD_cons_succ]
      have h2 : (lo :: hi :: rest).getD (2 * (k + 1) + 1) 0 = rest.getD (2 * k + 1) 0 := by
        have he : 2 * (k + 1) + 1 = (2 * k + 2) + 1 := by omega
        rw [he, List.getD_cons_succ]
        have he2 : 2 * k + 2 = (2 * k + 1) + 1 := by omega
        rw [he2, List.getD_cons_succ]
      rw [h1, h2]

theorem getD_take_drop {α : Type} (l : List α) (a b c : Nat) (d : α) (hcb : c < b) :
    ((l.drop a).take b).getD c d = l.getD (a + c) d := by
  rw [List.getD_eq_getElem?_getD, List.getD_eq_getElem?_getD, List.getElem?_take,
    if_pos hcb, List.getElem?_drop]

/-- C7 counterexample: the default (`transpose=False`) matrix is samples
× channels, not channels × samples.  For the 4-byte file holding one
sample of two channels (values 1 and 2), the claim as stated demands the
2×1 matrix `[[1], [2]]`, but `map_binary` returns the 1×2 matrix
`[[1, 2]]`. -/
theorem map_binary_not_channels_by_samples :
    map_binary [1, 0, 2, 0] 2 false ≠ [[1], [2]] := by decide

/-- C7 (amended): with the default `transpose=False`, `map_binary`
returns the samples × channels matrix whose entry at (sample `t`,
channel `c`) is the little-endian int16 stored at byte offset
`2*(t*nchannels+c)` of the file; `transpose=True` yields the
channels × samples orientation. -/
theorem map_binary_samples_major (file : List Nat) (nchannels : Nat)
    (hn : 0 < nchannels) :
    (map_binary file nchannels false).length = file.length / (nchannels * 2)
    ∧ (∀ t, t < file.length / (nchannels * 2) →
        ((map_binary file nchannels false).getD t []).length = nchannels)
    ∧ (∀ t c, t < file.length / (nchannels * 2) → c < nchannels →
        ((map_binary file nchannels false).getD t []).getD c 0
          = decodeInt16 (file.getD (2 * (t * nchannels + c)) 0)
              (file.getD (2 * (t * nchannels + c) + 1) 0)) := by
  have hmb : map_binary file nchannels false
      = (List.range (file.length / (nchannels * 2))).map
          (fun t => ((int16Stream file).drop (t * nchannels)).take nchannels) := rfl
  have hstream : (int16Stream file).length = file.length / 2 := int16Stream_length file
  have hbound : ∀ t c, t < file.length / (nchannels * 2) → c < nchannels →
      t * nchannels + c < (int16Stream file).length := by
    intro t c ht hc
    rw [hstream]
    have h1 : t * nchannels + c < (t + 1) * nchannels := by
      have : (t + 1) * nchannels = t * nchannels + nchannels := by ring
      omega
    have h2 : (t + 1) * nchannels ≤ (file.length / (nchannels * 2)) * nchannels :=
      Nat.mul_le_mul_right _ (by omega)
    have h3 : (file.length / (nchannels * 2)) * nchannels ≤ file.length / 2 := by
      rw [Nat.le_div_iff_mul_le (by norm_num)]
      have h4 : (file.length / (nchannels * 2)) * (nchannels * 2) ≤ file.length :=
        Nat.div_mul_le_self _ _
      calc file.length / (nchannels * 2) * nchannels * 2
          = file.length / (nchannels * 2) * (nchannels * 2) := by ring
        _ ≤ file.length := h4
    omega
  refine ⟨?_, ?_, ?_⟩
  · rw [hmb, List.length_map, List.length_range]
  · intro t ht
    rw [hmb, getD_map_range _ _ t [] ht, List.length_take, List.length_drop, hstream]
    have := hbound t (nchannels - 1) ht (by omega)
    rw [hstream] at this
    omega
  · intro t c ht hc
    rw [hmb, getD_map_range _ _ t [] ht, getD_take_drop _ _ _ _ _ hc]
    have hk := hbound t c ht hc
    rw [int16Stream_getD (t * nchannels + c) file
      (by rw [int16Stream_length] at hk; omega)]

/-- Closed instance of `map_binary_samples_major` probing sample 0,
channel 1 of a one-sample two-channel file. -/
theorem map_binary_samples_major_witness :
    ((map_binary [1, 0, 2, 0] 2 false).getD 0 []).getD 1 0
      = decodeInt16 ([1, 0, 2, 0].getD (2 * (0 * 2 + 1)) 0)
          ([1, 0, 2, 0].getD (2 * (0 * 2 + 1) + 1) 0) :=
  (map_binary_samples_major [1, 0, 2, 0] 2 (by decide)).2.2 0 1 (by decide) (by decide)

/-! ### `extract_rawChunk` (io.py lines 23-94)

Modelling notes: the binary path checks (`assert bp[-4:]=='.bin'`) and the
cache file name are not modelled; `cached` holds the contents of the
cached chunk file when it exists on disk.  `psutil` available memory is a
parameter.  Python floats are exact rationals and `int()` truncation
toward zero is `truncQ`.  A Python `assert` failure or numpy reshape
error is `Except.error`; a plain `return` of `None` — which is what the
low-memory branch does after printing a warning — is `Except.ok none`. -/

/-- Python `int()` on a float: truncation toward zero. -/
def truncQ (q : ℚ) : Int := if 0 ≤ q then ⌊q⌋ else ⌈q⌉

/-- Per-channel mean centering (`rc -= offsets`). -/
def meanCenter (row : List ℚ) : List ℚ :=
  row.map (fun v => v - row.sum / (row.length : ℚ))

def extract_rawChunk (file : List Nat) (cached : Option (List (List ℚ)))
    (times : ℚ × ℚ) (channels : List Nat) (fs ampFactor : ℚ)
    (Nchans : Nat) (availMem : ℚ) : Except String (Option (List (List ℚ))) :=
  if ¬ (channels.all (fun ch => ch ≤ Nchans - 1)) then
    Except.error "assert np.all(channels<=(Nchans-1)) failed"
  else
    match cached with
    | some rc => Except.ok (some rc)
    | none =>
      -- chunkSize = fs*385*2*(times[1]-times[0]); note the hardcoded 385
      let chunkSize := fs * 385 * 2 * (times.2 - times.1)
      if (9 / 10 : ℚ) * availMem < chunkSize then
        Except.ok none
      else
        let byte1 := truncQ (times.1 * fs * Nchans * 2)
        let byte2 := truncQ (times.2 * fs * Nchans * 2)
        let bData := (file.drop byte1.toNat).take (byte2 - byte1).toNat
        -- np.frombuffer(..., np.int16) * (1.2e6/2**10/ampFactor)
        let flat := (int16Stream bData).map
          (fun v => (v : ℚ) * (1200000 / 2 ^ 10 / ampFactor))
        let nrows := (truncQ (times.2 * fs - times.1 * fs)).toNat
        if flat.length = nrows * Nchans then
          -- reshape((nrows, Nchans)).T then select the requested channels
          let rc := channels.map
            (fun ch => (List.range nrows).map (fun t => flat.getD (t * Nchans + ch) 0))
          Except.ok (some (rc.map meanCenter))
        else
          Except.error "cannot reshape"

/-- C8 counterexample: when the estimated chunk size exceeds 90% of the
available memory, `extract_rawChunk` does not raise — it prints a warning
and returns `None`, so the call completes normally. -/
theorem extract_rawChunk_low_memory_no_error :
    extract_rawChunk [] none (0, 1) [0] 30000 500 385 0 = Except.ok none := by
  unfold extract_rawChunk
  rw [if_neg (show ¬ ¬ (([0] : List Nat).all (fun ch => ch ≤ 385 - 1) = true) by decide)]
  show (if (9 / 10 : ℚ) * 0 < 30000 * 385 * 2
        * (((0 : ℚ), (1 : ℚ)).2 - ((0 : ℚ), (1 : ℚ)).1) then
      Except.ok none
    else _) = (Except.ok none : Except String (Option (List (List ℚ))))
  rw [if_pos (by norm_num)]

/-- C8 (amended): whenever the estimated chunk size strictly exceeds 90%
of the available memory (and no cached chunk file exists and the channel
assertion passes), `extract_rawChunk` returns `None` normally, without
raising and without reading the file. -/
theorem extract_rawChunk_low_memory_returns_none (file : List Nat)
    (times : ℚ × ℚ) (channels : List Nat) (fs ampFactor : ℚ) (Nchans : Nat)
    (availMem : ℚ)
    (hch : channels.all (fun ch => ch ≤ Nchans - 1) = true)
    (hmem : (9 / 10 : ℚ) * availMem < fs * 385 * 2 * (times.2 - times.1)) :
    extract_rawChunk file none times channels fs ampFactor Nchans availMem
      = Except.ok none := by
  unfold extract_rawChunk
  rw [if_neg (show ¬ ¬ (channels.all (fun ch => ch ≤ Nchans - 1) = true) by
    rw [hch]; simp)]
  show (if (9 / 10 : ℚ) * availMem < fs * 385 * 2 * (times.2 - times.1) then
      Except.ok none
    else _) = (Except.ok none : Except String (Option (List (List ℚ))))
  rw [if_pos hmem]

/-- Closed instance of `extract_rawChunk_low_memory_returns_none` at a
two-second, two-channel request with 1 unit of available memory. -/
theorem extract_rawChunk_low_memory_returns_none_witness :
    extract_rawChunk [1, 2] none (0, 2) [0, 1] 30000 500 385 1
      = Except.ok none :=
  extract_rawChunk_low_memory_returns_none [1, 2] (0, 2) [0, 1] 30000 500 385 1
    (by decide) (by norm_num)

/-! ### `extract_syncChan` (io.py lines 96-145)

Python (no cached `_sync.npy` present):
```
sc=b''
i=30000
while i<60000:
    f_src.seek(int(i*Nchans+syncChan)*2)
    b = f_src.read(2)
    if not b:
        break
    sc+=b
    i+=1
sc = np.frombuffer(sc, dtype=np.uint8)
sc = np.unpackbits(sc)
Nsamples=int(len(sc)/16)
sc = sc.reshape((Nsamples, 16)).T
```
-/

/-- One `f_src.read(2)` at byte offset `off`: a read near the end of the
file returns fewer bytes, and the empty string at or past EOF. -/
def readAt (file : List Nat) (off : Nat) : List Nat := (file.drop off).take 2

/-- The reads the loop would issue: two bytes at channel `syncChan` of
each sample `i`, for `i = 30000, …, 59999`. -/
def syncReads (file : List Nat) (syncChan Nchans : Nat) : List (List Nat) :=
  (List.range' 30000 30000).map (fun i => readAt file ((i * Nchans + syncChan) * 2))

/-- The bytes the loop accumulates; it breaks at the first empty read. -/
def syncBytes (file : List Nat) (syncChan Nchans : Nat) : List Nat :=
  ((syncReads file syncChan Nchans).takeWhile (fun b => !b.isEmpty)).flatten

/-- `np.unpackbits` on one byte: 8 bits, most significant first.  (The
bytes of a file are below 256.) -/
def byteBits (b : Nat) : List Nat :=
  (List.range 8).map (fun j => b % 256 / 2 ^ (7 - j) % 2)

/-- `extract_syncChan` when no cached `_sync.npy` exists: read the sync
channel of samples 30000-59999, unpack bytes to bits, reshape to
`(Nsamples, 16)` — which raises (`none`) when the bit count is not a
multiple of 16 — and transpose. -/
def extract_syncChan (file : List Nat) (syncChan Nchans : Nat) :
    Option (List (List Nat)) :=
  let sc := syncBytes file syncChan Nchans
  let bits := sc.flatMap byteBits
  let Nsamples := bits.length / 16
  if bits.length = Nsamples * 16 then
    some ((List.range 16).map
      (fun r => (List.range Nsamples).map (fun j => bits.getD (j * 16 + r) 0)))
  else
    none

theorem takeWhile_eq_take_exists {α : Type} (p : α → Bool) (l : List α) :
    ∃ k, k ≤ l.length ∧ l.takeWhile p = l.take k := by
  induction l with
  | nil => exact ⟨0, by simp⟩
  | cons x xs ih =>
    by_cases hp : p x
    · rcases ih with ⟨k, hk, he⟩
      refine ⟨k + 1, by simp; omega, ?_⟩
      rw [List.takeWhile_cons_of_pos hp, List.take_succ_cons, he]
    · exact ⟨0, by simp, by rw [List.takeWhile_cons_of_neg (by simpa using hp)]; rfl⟩

theorem take_range' : ∀ (n k s : Nat), (List.range' s n).take k = List.range' s (min k n) := by
  intro n
  induction n with
  | zero => intro k s; simp
  | succ n ih =>
    intro k s
    rw [List.range'_succ]
    cases k with
    | zero => simp
    | succ k =>
      rw [List.take_succ_cons, ih k (s + 1)]
      have hmin : min (k + 1) (n + 1) = min k n + 1 := by omega
      rw [hmin, List.range'_succ]

theorem flatten_length_le_two (L : List (List Nat)) (h : ∀ l ∈ L, l.length ≤ 2) :
    L.flatten.length ≤ 2 * L.length := by
  induction L with
  | nil => simp
  | cons x xs ih =>
    rw [List.flatten_cons, List.length_append, List.length_cons]
    have h1 : x.length ≤ 2 := h x (by simp)
    have h2 : xs.flatten.length ≤ 2 * xs.length :=
      ih (fun l hl => h l (List.mem_cons_of_mem _ hl))
    omega

theorem flatMap_byteBits_length (l : List Nat) :
    (l.flatMap byteBits).length = 8 * l.length := by
  rw [List.length_flatMap]
  have hconst : List.map (List.length ∘ byteBits) l
      = List.replicate (List.map (List.length ∘ byteBits) l).length 8 := by
    apply List.eq_replicate_of_mem
    intro a ha
    rcases List.mem_map.mp ha with ⟨b, _, hb⟩
    rw [← hb]
    show (byteBits b).length = 8
    rw [show byteBits b = (List.range 8).map (fun j => b % 256 / 2 ^ (7 - j) % 2) from rfl,
      List.length_map, List.length_range]
  rw [hconst, List.sum_replicate, smul_eq_mul, List.length_map]
  ring

theorem syncBytes_length_le (file : List Nat) (syncChan Nchans : Nat) :
    (syncBytes file syncChan Nchans).length ≤ 60000 := by
  unfold syncBytes
  have hmem : ∀ l ∈ (syncReads file syncChan Nchans).takeWhile (fun b => !b.isEmpty),
      l.length ≤ 2 := by
    intro l hl
    have hl2 : l ∈ syncReads file syncChan Nchans :=
      (List.takeWhile_sublist _).mem hl
    rcases List.mem_map.mp hl2 with ⟨i, _, hi⟩
    rw [← hi]
    show ((file.drop ((i * Nchans + syncChan) * 2)).take 2).length ≤ 2
    rw [List.length_take]
    omega
  have hlen : ((syncReads file syncChan Nchans).takeWhile (fun b => !b.isEmpty)).length
      ≤ 30000 := by
    have h1 := (List.takeWhile_sublist
      (l := syncReads file syncChan Nchans) (fun b => !b.isEmpty)).length_le
    have h2 : (syncReads file syncChan Nchans).length = 30000 := by
      unfold syncReads
      rw [List.length_map, List.length_range']
    omega
  have := flatten_length_le_two _ hmem
  omega

/-- C9: `extract_syncChan` (without a cached result) reads only samples
30000-59999: the returned matrix is 16 × Nsamples with `Nsamples ≤
30000`, and the accumulated bytes are exactly the concatenation of the
2-byte reads at samples `30000, …, 30000+k-1` for some `k ≤ 30000`. -/
theorem extract_syncChan_reads_window (file : List Nat) (syncChan Nchans : Nat)
    (sc : List (List Nat)) (h : extract_syncChan file syncChan Nchans = some sc) :
    sc.length = 16
    ∧ (∀ row ∈ sc, row.length ≤ 30000)
    ∧ (∃ k ≤ 30000, syncBytes file syncChan Nchans
        = ((List.range' 30000 k).map
            (fun i => readAt file ((i * Nchans + syncChan) * 2))).flatten) := by
  have hNs : ((syncBytes file syncChan Nchans).flatMap byteBits).length / 16 ≤ 30000 := by
    have h1 : ((syncBytes file syncChan Nchans).flatMap byteBits).length ≤ 480000 := by
      rw [flatMap_byteBits_length]
      have := syncBytes_length_le file syncChan Nchans
      omega
    calc ((syncBytes file syncChan Nchans).flatMap byteBits).length / 16
        ≤ 480000 / 16 := Nat.div_le_div_right h1
      _ = 30000 := by norm_num
  have h' : (if ((syncBytes file syncChan Nchans).flatMap byteBits).length
      = (((syncBytes file syncChan Nchans).flatMap byteBits).length / 16) * 16 then
      some ((List.range 16).map (fun r =>
        (List.range (((syncBytes file syncChan Nchans).flatMap byteBits).length / 16)).map
          (fun j => ((syncBytes file syncChan Nchans).flatMap byteBits).getD (j * 16 + r) 0)))
    else none) = some sc := h
  refine ⟨?_, ?_, ?_⟩
  · split at h'
    · rw [← Option.some_inj.mp h', List.length_map, List.length_range]
    · cases h'
  · intro row hrow
    split at h'
    · rw [← Option.some_inj.mp h'] at hrow
      rcases List.mem_map.mp hrow with ⟨r, _, hr⟩
      rw [← hr, List.length_map, List.length_range]
      exact hNs
    · cases h'
  · rcases takeWhile_eq_take_exists (fun b => !b.isEmpty)
      (syncReads file syncChan Nchans) with ⟨k, hk, he⟩
    have hk30 : k ≤ 30000 := by
      have h2 : (syncReads file syncChan Nchans).length = 30000 := by
        unfold syncReads
        rw [List.length_map, List.length_range']
      omega
    refine ⟨k, hk30, ?_⟩
    unfold syncBytes
    rw [he]
    unfold syncReads
    rw [← List.map_take, take_range', min_eq_left hk30]

/-- Closed instance of `extract_syncChan_reads_window` on the empty file
(every read is empty, so the loop breaks immediately). -/
theorem extract_syncChan_reads_window_witness :
    ∃ k ≤ 30000, syncBytes [] 384 385
      = ((List.range' 30000 k).map
          (fun i => readAt [] ((i * 385 + 384) * 2))).flatten :=
  (extract_syncChan_reads_window [] 384 385 (List.replicate 16 [])
    (by decide)).2.2

end NeuroPyxels
